import Mathlib

/-!
Verification of the audio stage of x264_L-SMASH: the windowed decode cache
(`src/filters/audio/source_lavf.c`) and the LAME frame-pull encoder adapter
(`src/audio/encoders/enc_mp3lame.c`), shallowly embedded over lists of bytes.

Byte buffers are `List Nat`; the decoded source is the list of decode units
(each one the byte payload produced by one `decode_next_frame` call).  All
state mutation of the C code is made explicit by threading a state value.
-/

namespace X264Audio

/-- The immutable per-handle parameters of `lavf_source_t`: `bufsize`
(cache capacity), `surplus`, and `info->samplesize` (bytes per sample frame).
They are set once by `init` and never written afterwards. -/
structure Params where
  bufsize : Nat
  surplus : Nat
  samplesize : Nat
  deriving Repr, DecidableEq

/-- The mutable state of `lavf_source_t`: the remaining decode units the
demuxer/decoder will still produce (`stream`, the deterministic source),
the cache `buffer` (only its `len` valid bytes are kept), and `bytepos`,
the absolute decoded-byte offset of `buffer[0]`.  `len` of the C struct is
`buffer.length` here.  The sticky `errored` flag is *not* a field: in the C
it is a function-local `static` inside `fill_buffer_until`, shared by every
instance, so it is threaded separately (see `World` below). -/
structure CacheState where
  stream : List (List Nat)
  buffer : List Nat
  bytepos : Nat
  deriving Repr, DecidableEq

/-- `h->bytepos + h->len`: absolute byte offset one past the cached window. -/
def avail (st : CacheState) : Nat :=
  st.bytepos + st.buffer.length

/-- An `audio_packet_t` as returned by the source filter: payload bytes,
the `AUDIO_FLAG_EOF` bit, `dts` and `samplecount`.  `get_samples` allocates
the packet with `calloc`, so `dts`/`samplecount` are 0 unless written. -/
structure Packet where
  data : List Nat
  eof : Bool
  dts : Nat
  samplecount : Nat
  deriving Repr, DecidableEq

/-- `buffer_next_frame` (source_lavf.c:238-256): decode one unit; if
appending it would overflow `bufsize`, first discard the incoming unit's
size in oldest bytes (`memmove`, `len -= dec->size`, `bytepos += dec->size`);
then append the unit.  Returns `none` when `decode_next_frame` fails
(end of stream or demux error), i.e. when no decode unit is left. -/
def bufferNextFrame (P : Params) (st : CacheState) : Option CacheState :=
  match st.stream with
  | [] => none
  | dec :: rest =>
    if st.buffer.length + dec.length > P.bufsize then
      some { stream := rest
             buffer := st.buffer.drop dec.length ++ dec
             bytepos := st.bytepos + dec.length }
    else
      some { stream := rest
             buffer := st.buffer ++ dec
             bytepos := st.bytepos }

/-- `not_in_cache` (source_lavf.c:258-266): `-1` if the sample's byte offset
is before the cached window, `0` if inside, `1` if after. -/
def notInCache (P : Params) (st : CacheState) (sample : Nat) : Int :=
  if sample * P.samplesize < st.bytepos then -1
  else if sample * P.samplesize < st.bytepos + st.buffer.length then 0
  else 1

/-- The `while( not_in_cache( h, lastsample ) > 0 )` loop of
`fill_buffer_until` (source_lavf.c:281-289): decode units until the sample
is resident; if `buffer_next_frame` fails, set the sticky `errored` flag
and break.  The returned `Bool` is the value `errored` was set to by the
loop.  The loop consumes one decode unit of the finite `stream` per
iteration, so `fill_buffer_until` runs it with fuel `st.stream.length`,
which is exact: when the fuel is 0 the stream is empty, and
`buffer_next_frame` would fail, which is what the 0-fuel arm returns. -/
def fillLoop (P : Params) (sample : Nat) : Nat → CacheState → Bool × CacheState
  | 0, st =>
    if sample * P.samplesize < avail st then (false, st)
    else (true, st)
  | fuel + 1, st =>
    if sample * P.samplesize < avail st then (false, st)
    else
      match bufferNextFrame P st with
      | none => (true, st)
      | some st' => fillLoop P sample fuel st'

/-- `fill_buffer_until` (source_lavf.c:268-292).  `err` is the function's
`static int errored` (a single flag shared program-wide).  Result `none`
models the `-1` return: already errored, or backwards seek
(`not_in_cache < 0`); the final `assert( ret >= 0 )` — which would fire if
the loop's evictions pushed `bytepos` past the requested sample — is also
modelled as a failure.  On success the return value is
`h->bytepos + h->len`. -/
def fillBufferUntil (P : Params) (err : Bool) (st : CacheState) (sample : Nat) :
    Bool × CacheState × Option Nat :=
  if err then (err, st, none)
  else if notInCache P st sample < 0 then (err, st, none)
  else
    let (e, st') := fillLoop P sample st.stream.length st
    if notInCache P st' sample < 0 then (e, st', none)
    else (e, st', some (avail st'))

/-- `get_samples` (source_lavf.c:295-360), with the recursion made total by
a fuel argument (the C recursion's depth is finite whenever the call
terminates; every theorem below quantifies over the fuel).  Result `none`
models every abnormal outcome: the `NULL` returns, a failed `assert`, and
the out-of-bounds `memcpy` that a negative `start` offset would perform
(the C computes `intptr_t start = first_sample*samplesize - bytepos`, which
is negative when the fill for `last_sample` evicted the first sample's
bytes; the copy would then read before the buffer, so it is modelled as a
failure). -/
def getSamples (P : Params) : Nat → Bool → CacheState → Nat → Nat →
    Bool × CacheState × Option Packet
  | 0, e, st, _, _ => (e, st, none)
  | fuel + 1, e, st, first, last =>
    -- assert( first_sample >= 0 && last_sample > first_sample );
    if last ≤ first then (e, st, none)
    else
      match fillBufferUntil P e st first with
      | (e1, st1, none) => (e1, st1, none)
      | (e1, st1, some _) =>
        let sz := (last - first) * P.samplesize
        if sz + P.surplus > P.bufsize then
          let pivot := first + (P.bufsize - P.surplus * 2) / P.samplesize
          let expected := (pivot - first) * P.samplesize
          match getSamples P fuel e1 st1 first pivot with
          | (e2, st2, none) => (e2, st2, none)
          | (e2, st2, some prev) =>
            if prev.data.length < expected then
              -- EOF: return the first half itself, flagged
              (e2, st2, some { prev with eof := true })
            else if expected < prev.data.length then
              -- assert( prev->size == expected ); (provably unreachable)
              (e2, st2, none)
            else
              match getSamples P fuel e2 st2 pivot last with
              | (e3, st3, none) => (e3, st3, none)
              | (e3, st3, some next) =>
                (e3, st3, some { data := prev.data ++ next.data
                                 eof := false, dts := 0, samplecount := 0 })
        else
          match fillBufferUntil P e1 st1 last with
          | (e2, st2, none) => (e2, st2, none)
          | (e2, st2, some lastavail) =>
            if first * P.samplesize < st2.bytepos then (e2, st2, none)
            else
              let start := first * P.samplesize - st2.bytepos
              if lastavail < last * P.samplesize then
                (e2, st2, some { data := (st2.buffer.drop start).take
                                           (lastavail - st2.bytepos - start)
                                 eof := true, dts := 0, samplecount := 0 })
              else
                (e2, st2, some { data := (st2.buffer.drop start).take sz
                                 eof := false, dts := 0, samplecount := 0 })

/-- Modelled from the spec: the filter-chain wrapper `x264_af_get_samples`
(the public pull entry point; its definition is not under src/, only its
callers are).  Per the spec, the returned packet "carries `timestamp =
first_sample`" and a sample count derived from the payload size; the
wrapper stamps those fields onto whatever the filter's `get_samples`
produced. -/
def afGetSamples (P : Params) (fuel : Nat) (err : Bool) (st : CacheState)
    (first last : Nat) : Bool × CacheState × Option Packet :=
  match getSamples P fuel err st first last with
  | (e', st', none) => (e', st', none)
  | (e', st', some pkt) =>
    (e', st', some { pkt with dts := first
                              samplecount := pkt.data.length / P.samplesize })

/-- A consumer session: a sequence of `get_samples` requests issued against
one handle, threading the shared error flag and the cache state (the
returned packets are not needed for the state invariants). -/
def runRequests (P : Params) (fuel : Nat) :
    List (Nat × Nat) → Bool × CacheState → Bool × CacheState
  | [], s => s
  | (f, l) :: reqs, (e, st) =>
    let (e', st', _) := getSamples P fuel e st f l
    runRequests P fuel reqs (e', st')

/-- Well-formedness of a cache handle as established by `init`: a positive
`samplesize`, the buffer within capacity, and every decode unit at most
half the capacity (`DEFAULT_BUFSIZE` is `AVCODEC_MAX_AUDIO_FRAME_SIZE * 2`
while `decode_next_frame` decodes into a packet of at most
`AVCODEC_MAX_AUDIO_FRAME_SIZE` bytes). -/
def WF (P : Params) (st : CacheState) : Prop :=
  0 < P.samplesize ∧ st.buffer.length ≤ P.bufsize ∧
    ∀ u ∈ st.stream, 2 * u.length ≤ P.bufsize

/-- The cache window agrees with the deterministic decoded byte stream
`total`: from `bytepos` on, `total` is exactly the cached bytes followed by
the not-yet-decoded units.  Everything before `bytepos` has been evicted. -/
def Consistent (total : List Nat) (st : CacheState) : Prop :=
  st.bytepos ≤ total.length ∧
    total.drop st.bytepos = st.buffer ++ st.stream.flatten

instance (P : Params) (st : CacheState) : Decidable (WF P st) :=
  decidable_of_iff (0 < P.samplesize ∧ st.buffer.length ≤ P.bufsize ∧
    ∀ u ∈ st.stream, 2 * u.length ≤ P.bufsize) Iff.rfl

instance (total : List Nat) (st : CacheState) : Decidable (Consistent total st) :=
  decidable_of_iff (st.bytepos ≤ total.length ∧
    total.drop st.bytepos = st.buffer ++ st.stream.flatten) Iff.rfl

/-- Two decode-cache instances side by side.  In the C, the sticky error
flag is a function-local `static int errored` inside `fill_buffer_until`
(source_lavf.c:270) — a single program-wide variable shared by every
`lavf_source_t` instance — while buffer, `len` and `bytepos` live in the
per-instance struct. -/
structure World where
  errored : Bool
  instA : CacheState
  instB : CacheState
  deriving Repr, DecidableEq

/-- `get_samples` invoked on instance A: reads and writes the shared
`errored` static and A's own state. -/
def getSamplesA (P : Params) (fuel : Nat) (w : World) (first last : Nat) :
    World × Option Packet :=
  let (e, st, r) := getSamples P fuel w.errored w.instA first last
  ({ w with errored := e, instA := st }, r)

/-- `get_samples` invoked on instance B. -/
def getSamplesB (P : Params) (fuel : Nat) (w : World) (first last : Nat) :
    World × Option Packet :=
  let (e, st, r) := getSamples P fuel w.errored w.instB first last
  ({ w with errored := e, instB := st }, r)

/-! ## The LAME frame-pull encoder adapter (`src/audio/encoders/enc_mp3lame.c`)

`Λ` is the opaque state of the external LAME encoder
(`lame_global_flags`), abstracted as a state transformer;
`Υ` is the state of the upstream filter chain, abstracted as a pull
function `Υ → first → last → Option Packet × Υ` with the
`x264_af_get_samples` contract. -/

/-- An encoded output packet: `out->dts` and the encoded bytes. -/
structure OutPkt where
  dts : Nat
  data : List Nat
  deriving Repr, DecidableEq

/-- `enc_lame_t` (enc_mp3lame.c:7-19).  `in_` is `h->in`, the most recently
pulled upstream packet; `inFreed` records that this pointer was passed to
`x264_af_free_packet` without the field being cleared, so reading through
it is only well-defined while `inFreed = false`.  `bufsize` is the output
buffer capacity computed at `init`; `packet_count` is the (otherwise
unused) counter field. -/
structure EncState (Λ Υ : Type) where
  finishing : Nat
  lame : Λ
  last_sample : Nat
  in_ : Option Packet
  inFreed : Bool
  up : Υ
  bufsize : Nat
  packet_count : Nat
  deriving Repr, DecidableEq

/-- The adapter state right after `init` (enc_mp3lame.c:30-84): the struct
is `calloc`ed, so `finishing`, `last_sample`, `packet_count` and `h->in`
are zero/NULL. -/
def encInit (lame0 : Λ) (up0 : Υ) (bufsize : Nat) : EncState Λ Υ :=
  { finishing := 0, lame := lame0, last_sample := 0, in_ := none
    inFreed := false, up := up0, bufsize := bufsize, packet_count := 0 }

/-- The `while( !out->size )` loop of `get_next_packet`
(enc_mp3lame.c:116-132), with fuel (the C loop is unbounded; the outer
`none` means the modelled run did not finish within `fuel` iterations).
`some (none, st')` models the `NULL` returns — end-of-stream reached (the
held packet carries `AUDIO_FLAG_EOF`: set `finishing`, free `h->in`
without clearing it) or a failed upstream pull — and `some (some out, st')`
a successful non-empty encode. -/
def gnpLoop (enc : Λ → Packet → Λ × List Nat)
    (pull : Υ → Nat → Nat → Option Packet × Υ) (framelen : Nat) :
    Nat → EncState Λ Υ → Option (Option OutPkt × EncState Λ Υ)
  | 0, _ => none
  | fuel + 1, st =>
    -- if( h->in && h->in->flags & AUDIO_FLAG_EOF )
    if st.in_.elim false Packet.eof then
      some (none, { st with finishing := 1, inFreed := true })
    else
      -- x264_af_free_packet( h->in ); h->in = x264_af_get_samples( ... );
      match pull st.up st.last_sample (st.last_sample + framelen) with
      | (none, u') => some (none, { st with in_ := none, inFreed := false, up := u' })
      | (some p, u') =>
        let dts := st.last_sample
        let (l', bytes) := enc st.lame p
        let st' :=
          { st with
            in_ := some p
            inFreed := false
            up := u'
            last_sample := st.last_sample + p.samplecount
            lame := l' }
        if bytes.isEmpty then gnpLoop enc pull framelen fuel st'
        else some (some { dts := dts, data := bytes }, st')

/-- The packets `get_next_packet`'s loop pulls from upstream, in order
(ghost data mirroring `gnpLoop`, for stating the loop's accounting). -/
def gnpTrace (enc : Λ → Packet → Λ × List Nat)
    (pull : Υ → Nat → Nat → Option Packet × Υ) (framelen : Nat) :
    Nat → EncState Λ Υ → List Packet
  | 0, _ => []
  | fuel + 1, st =>
    if st.in_.elim false Packet.eof then []
    else
      match pull st.up st.last_sample (st.last_sample + framelen) with
      | (none, _) => []
      | (some p, u') =>
        let (l', bytes) := enc st.lame p
        let st' :=
          { st with
            in_ := some p
            inFreed := false
            up := u'
            last_sample := st.last_sample + p.samplecount
            lame := l' }
        if bytes.isEmpty then p :: gnpTrace enc pull framelen fuel st' else [p]

/-- `get_next_packet` (enc_mp3lame.c:106-139): `NULL` immediately when
`h->finishing` is set, otherwise the pull/encode loop. -/
def getNextPacket (enc : Λ → Packet → Λ × List Nat)
    (pull : Υ → Nat → Nat → Option Packet × Υ) (framelen fuel : Nat)
    (st : EncState Λ Υ) : Option (Option OutPkt × EncState Λ Υ) :=
  if st.finishing ≠ 0 then some (none, st)
  else gnpLoop enc pull framelen fuel st

/-- `skip_samples` (enc_mp3lame.c:141-144). -/
def skipSamples (st : EncState Λ Υ) (samplecount : Nat) : EncState Λ Υ :=
  { st with last_sample := st.last_sample + samplecount }

/-- Reading `h->in->samplecount` is well-defined: the field holds a packet
and that packet has not been released. -/
def FinishSafe (st : EncState Λ Υ) : Prop :=
  st.inFreed = false ∧ st.in_.isSome

/-- `finish` (enc_mp3lame.c:146-162).  `out->dts = h->last_sample +
h->in->samplecount * ++h->finishing` reads through `h->in`; when that is
`NULL` (no pull ever succeeded) or already released (the error path of
`get_next_packet` frees it without clearing the field), the read is
undefined behavior, modelled as the outer `none`.  The inner option is the
function's own result: `none` for an empty flush. -/
def finish (flushFn : Λ → List Nat) (st : EncState Λ Υ) :
    Option (Option OutPkt × EncState Λ Υ) :=
  match st.in_, st.inFreed with
  | some p, false =>
    let fin := st.finishing + 1
    let bytes := flushFn st.lame
    some (if bytes.isEmpty then none
          else some { dts := st.last_sample + p.samplecount * fin, data := bytes },
          { st with finishing := fin })
  | _, _ => none

/-- A two-window scripted upstream for concrete runs: pop packets off a
list; an empty list is end of upstream. -/
def scriptPull (u : List Packet) (_f _t : Nat) : Option Packet × List Packet :=
  match u with
  | [] => (none, [])
  | q :: r => (some q, r)

/-- A toy external encoder state: counts windows fed; emits nothing on the
first window (it buffers internally) and two bytes on every later one. -/
def toyEnc (n : Nat) (_q : Packet) : Nat × List Nat :=
  (n + 1, if n = 0 then [] else [7, 7])

/-- A toy flush for the external encoder. -/
def toyFlush (_m : Nat) : List Nat := [9]

/-! ## Invariant lemmas for the decode cache -/

theorem stream_eq_nil_of_bnf_none {P : Params} {st : CacheState}
    (h : bufferNextFrame P st = none) : st.stream = [] := by
  rcases hs : st.stream with _ | ⟨dec, rest⟩
  · rfl
  · simp only [bufferNextFrame, hs] at h
    split at h <;> simp at h

theorem bnf_spec {P : Params} {total : List Nat} {st st' : CacheState}
    (hWF : WF P st) (hC : Consistent total st)
    (h : bufferNextFrame P st = some st') :
    WF P st' ∧ Consistent total st' ∧
      st.bytepos ≤ st'.bytepos ∧ st'.bytepos ≤ avail st ∧
      ∃ dec rest, st.stream = dec :: rest ∧ st'.stream = rest ∧
        avail st' = avail st + dec.length := by
  obtain ⟨hss, hlen, hunits⟩ := hWF
  obtain ⟨hbp, hdrop⟩ := hC
  rcases hs : st.stream with _ | ⟨dec, rest⟩
  · simp [bufferNextFrame, hs] at h
  · have hu : 2 * dec.length ≤ P.bufsize :=
      hunits dec (by rw [hs]; exact List.mem_cons_self _ _)
    have hunits' : ∀ u ∈ rest, 2 * u.length ≤ P.bufsize := fun u h' =>
      hunits u (by rw [hs]; exact List.mem_cons_of_mem _ h')
    rw [hs] at hdrop
    have hlt : total.length - st.bytepos =
        st.buffer.length + (dec.length + rest.flatten.length) := by
      have hle := congrArg List.length hdrop
      simpa [List.length_drop, List.flatten_cons] using hle
    simp only [bufferNextFrame, hs] at h
    split at h <;> rename_i hcond <;>
      simp only [Option.some.injEq] at h <;> subst h
    · -- eviction: discard the incoming unit's size from the front
      have hdl : dec.length ≤ st.buffer.length := by omega
      refine ⟨⟨hss, ?_, hunits'⟩, ⟨?_, ?_⟩, ?_, ?_, dec, rest, rfl, rfl, ?_⟩
      · show (st.buffer.drop dec.length ++ dec).length ≤ P.bufsize
        simp only [List.length_append, List.length_drop]
        omega
      · show st.bytepos + dec.length ≤ total.length
        omega
      · show total.drop (st.bytepos + dec.length) =
          (st.buffer.drop dec.length ++ dec) ++ rest.flatten
        calc total.drop (st.bytepos + dec.length)
            = (total.drop st.bytepos).drop dec.length := (List.drop_drop _ _ _).symm
          _ = (st.buffer ++ (dec ++ rest.flatten)).drop dec.length := by
              rw [hdrop, List.flatten_cons]
          _ = st.buffer.drop dec.length ++ (dec ++ rest.flatten) :=
              List.drop_append_of_le_length hdl
          _ = (st.buffer.drop dec.length ++ dec) ++ rest.flatten :=
              (List.append_assoc _ _ _).symm
      · exact Nat.le_add_right _ _
      · show st.bytepos + dec.length ≤ avail st
        unfold avail
        omega
      · show st.bytepos + dec.length + (st.buffer.drop dec.length ++ dec).length
          = avail st + dec.length
        simp only [List.length_append, List.length_drop, avail]
        omega
    · -- plain append
      refine ⟨⟨hss, ?_, hunits'⟩, ⟨hbp, ?_⟩, le_refl _, ?_, dec, rest, rfl, rfl, ?_⟩
      · show (st.buffer ++ dec).length ≤ P.bufsize
        simp only [List.length_append]
        omega
      · show total.drop st.bytepos = (st.buffer ++ dec) ++ rest.flatten
        rw [hdrop, List.flatten_cons, List.append_assoc]
      · show st.bytepos ≤ avail st
        exact Nat.le_add_right _ _
      · show st.bytepos + (st.buffer ++ dec).length = avail st + dec.length
        simp only [List.length_append, avail]
        omega

theorem fillLoop_spec (P : Params) (total : List Nat) (sample : Nat) :
    ∀ (fuel : Nat) (st : CacheState), st.stream.length ≤ fuel →
      WF P st → Consistent total st →
      st.bytepos ≤ sample * P.samplesize →
      WF P (fillLoop P sample fuel st).2 ∧
      Consistent total (fillLoop P sample fuel st).2 ∧
      st.bytepos ≤ (fillLoop P sample fuel st).2.bytepos ∧
      avail st ≤ avail (fillLoop P sample fuel st).2 ∧
      (fillLoop P sample fuel st).2.bytepos ≤ sample * P.samplesize ∧
      ((fillLoop P sample fuel st).1 = false →
        sample * P.samplesize < avail (fillLoop P sample fuel st).2) ∧
      ((fillLoop P sample fuel st).1 = true →
        (fillLoop P sample fuel st).2.stream = [] ∧
        avail (fillLoop P sample fuel st).2 ≤ sample * P.samplesize) := by
  intro fuel
  induction fuel with
  | zero =>
    intro st hfuel hWF hC hbp
    have hs : st.stream = [] := by
      rcases hstr : st.stream with _ | ⟨d, r⟩
      · rfl
      · rw [hstr] at hfuel
        simp at hfuel
    by_cases hres : sample * P.samplesize < avail st
    · have hstep : fillLoop P sample 0 st = (false, st) := by
        simp only [fillLoop, if_pos hres]
      rw [hstep]
      refine ⟨hWF, hC, le_refl _, le_refl _, hbp, fun _ => hres, ?_⟩
      intro habs
      simp at habs
    · have hstep : fillLoop P sample 0 st = (true, st) := by
        simp only [fillLoop, if_neg hres]
      rw [hstep]
      refine ⟨hWF, hC, le_refl _, le_refl _, hbp, ?_, ?_⟩
      · intro habs
        simp at habs
      · intro _
        refine ⟨hs, ?_⟩
        show avail st ≤ sample * P.samplesize
        omega
  | succ n ih =>
    intro st hfuel hWF hC hbp
    by_cases hres : sample * P.samplesize < avail st
    · have hstep : fillLoop P sample (n + 1) st = (false, st) := by
        simp only [fillLoop, if_pos hres]
      rw [hstep]
      refine ⟨hWF, hC, le_refl _, le_refl _, hbp, fun _ => hres, ?_⟩
      intro habs
      simp at habs
    · rcases hb : bufferNextFrame P st with _ | st'
      · have hstep : fillLoop P sample (n + 1) st = (true, st) := by
          simp only [fillLoop, if_neg hres, hb]
        rw [hstep]
        refine ⟨hWF, hC, le_refl _, le_refl _, hbp, ?_, ?_⟩
        · intro habs
          simp at habs
        · intro _
          refine ⟨stream_eq_nil_of_bnf_none hb, ?_⟩
          show avail st ≤ sample * P.samplesize
          omega
      · have hstep : fillLoop P sample (n + 1) st = fillLoop P sample n st' := by
          simp only [fillLoop, if_neg hres, hb]
        obtain ⟨hWF', hC', hmono, hle_avail, dec, rest, hts, hts', he⟩ :=
          bnf_spec hWF hC hb
        have hfuel' : st'.stream.length ≤ n := by
          rw [hts']
          rw [hts] at hfuel
          simp only [List.length_cons] at hfuel
          omega
        have h1' : avail st ≤ sample * P.samplesize := by omega
        have hbp' : st'.bytepos ≤ sample * P.samplesize := le_trans hle_avail h1'
        obtain ⟨w1, w2, w3, w4, w5, w6, w7⟩ := ih st' hfuel' hWF' hC' hbp'
        rw [hstep]
        exact ⟨w1, w2, le_trans hmono w3, le_trans (by omega) w4, w5, w6, w7⟩

theorem notInCache_neg {P : Params} {st : CacheState} {sample : Nat} :
    notInCache P st sample < 0 ↔ sample * P.samplesize < st.bytepos := by
  unfold notInCache
  split <;> rename_i h1
  · simp [h1]
  · split <;> simp [h1]

theorem fill_errored (P : Params) (st : CacheState) (sample : Nat) :
    fillBufferUntil P true st sample = (true, st, none) := rfl

theorem fill_backward {P : Params} {st : CacheState} {sample : Nat} (e : Bool)
    (h : sample * P.samplesize < st.bytepos) :
    fillBufferUntil P e st sample = (e, st, none) := by
  cases e
  · unfold fillBufferUntil
    rw [if_neg (by simp), if_pos (notInCache_neg.mpr h)]
  · exact fill_errored P st sample

theorem fill_spec {P : Params} {total : List Nat} {st : CacheState} {sample : Nat}
    (hWF : WF P st) (hC : Consistent total st)
    (hbp : st.bytepos ≤ sample * P.samplesize) :
    ∃ e' st', fillBufferUntil P false st sample = (e', st', some (avail st')) ∧
      WF P st' ∧ Consistent total st' ∧ st.bytepos ≤ st'.bytepos ∧
      avail st ≤ avail st' ∧ st'.bytepos ≤ sample * P.samplesize ∧
      (e' = false → sample * P.samplesize < avail st') ∧
      (e' = true → st'.stream = [] ∧ avail st' ≤ sample * P.samplesize) := by
  obtain ⟨w1, w2, w3, w4, w5, w6, w7⟩ :=
    fillLoop_spec P total sample st.stream.length st (le_refl _) hWF hC hbp
  rcases hfl : fillLoop P sample st.stream.length st with ⟨e0, s0⟩
  rw [hfl] at w1 w2 w3 w4 w5 w6 w7
  dsimp only at w1 w2 w3 w4 w5 w6 w7
  refine ⟨e0, s0, ?_, w1, w2, w3, w4, w5, w6, w7⟩
  unfold fillBufferUntil
  rw [if_neg (by simp), if_neg (by rw [notInCache_neg]; omega), hfl]
  dsimp only
  rw [if_neg (by rw [notInCache_neg]; omega)]

theorem getSamples_errored (P : Params) :
    ∀ (fuel : Nat) (st : CacheState) (first last : Nat),
      getSamples P fuel true st first last = (true, st, none) := by
  intro fuel st first last
  cases fuel with
  | zero => rfl
  | succ n =>
    simp only [getSamples, fill_errored]
    split <;> rfl

theorem getSamples_spec (P : Params) (total : List Nat) :
    ∀ (fuel : Nat) (e : Bool) (st : CacheState) (f l : Nat) (e' : Bool)
      (st' : CacheState) (r : Option Packet),
      WF P st → Consistent total st →
      getSamples P fuel e st f l = (e', st', r) →
      (WF P st' ∧ Consistent total st' ∧ st.bytepos ≤ st'.bytepos ∧
        avail st ≤ avail st') ∧
      (∀ pkt, r = some pkt → e = false →
        pkt.data = (total.drop (f * P.samplesize)).take
          ((l - f) * P.samplesize)) := by
  intro fuel
  induction fuel with
  | zero =>
    intro e st f l e' st' r hWF hC h
    simp only [getSamples, Prod.mk.injEq] at h
    obtain ⟨rfl, rfl, rfl⟩ := h
    exact ⟨⟨hWF, hC, le_refl _, le_refl _⟩, fun pkt hp => Option.noConfusion hp⟩
  | succ n ih =>
    intro e st f l e' st' r hWF hC h
    cases e with
    | true =>
      rw [getSamples_errored] at h
      simp only [Prod.mk.injEq] at h
      obtain ⟨rfl, rfl, rfl⟩ := h
      refine ⟨⟨hWF, hC, le_refl _, le_refl _⟩, ?_⟩
      intro pkt hp he
      simp at he
    | false =>
      simp only [getSamples] at h
      split at h
      · -- assert( last_sample > first_sample ) failed
        simp only [Prod.mk.injEq] at h
        obtain ⟨rfl, rfl, rfl⟩ := h
        exact ⟨⟨hWF, hC, le_refl _, le_refl _⟩, fun pkt hp => Option.noConfusion hp⟩
      · rename_i hfl
        by_cases hback : f * P.samplesize < st.bytepos
        · simp only [fill_backward false hback, Prod.mk.injEq] at h
          obtain ⟨rfl, rfl, rfl⟩ := h
          exact ⟨⟨hWF, hC, le_refl _, le_refl _⟩, fun pkt hp => Option.noConfusion hp⟩
        · obtain ⟨e1, st1, hfill, u1, u2, u3, u4, u5, u6, u7⟩ :=
            fill_spec hWF hC (show st.bytepos ≤ f * P.samplesize by omega)
          simp only [hfill] at h
          split at h
          · rename_i hsplit
            -- split path
            cases e1 with
            | true =>
              simp only [getSamples_errored, Prod.mk.injEq] at h
              obtain ⟨rfl, rfl, rfl⟩ := h
              exact ⟨⟨u1, u2, u3, u4⟩, fun pkt hp => Option.noConfusion hp⟩
            | false =>
              rcases hrec : getSamples P n false st1 f
                  (f + (P.bufsize - P.surplus * 2) / P.samplesize) with ⟨e2, st2, _ | prev⟩
              · simp only [hrec] at h
                obtain ⟨⟨x1, x2, x3, x4⟩, -⟩ := ih false st1 f _ e2 st2 none u1 u2 hrec
                simp only [Prod.mk.injEq] at h
                obtain ⟨rfl, rfl, rfl⟩ := h
                exact ⟨⟨x1, x2, le_trans u3 x3, le_trans u4 x4⟩,
                  fun pkt hp => Option.noConfusion hp⟩
              · simp only [hrec] at h
                obtain ⟨⟨x1, x2, x3, x4⟩, xp⟩ :=
                  ih false st1 f _ e2 st2 (some prev) u1 u2 hrec
                have hprev := xp prev rfl rfl
                rw [Nat.add_sub_cancel_left] at hprev
                split at h
                · rename_i hshort
                  rw [Nat.add_sub_cancel_left] at hshort
                  simp only [Prod.mk.injEq] at h
                  obtain ⟨rfl, rfl, rfl⟩ := h
                  refine ⟨⟨x1, x2, le_trans u3 x3, le_trans u4 x4⟩, ?_⟩
                  intro pkt hp _
                  simp only [Option.some.injEq] at hp
                  subst hp
                  show prev.data = _
                  rw [hprev]
                  have hexp : (P.bufsize - P.surplus * 2) / P.samplesize * P.samplesize
                      ≤ P.bufsize - P.surplus * 2 := Nat.div_mul_le_self _ _
                  have hTlen : (total.drop (f * P.samplesize)).length <
                      (P.bufsize - P.surplus * 2) / P.samplesize * P.samplesize := by
                    have hl2 := congrArg List.length hprev
                    rw [List.length_take] at hl2
                    omega
                  rw [List.take_of_length_le (by omega), List.take_of_length_le (by omega)]
                · rename_i hshort
                  split at h
                  · -- assert( prev->size == expected ) would fail; unreachable branch
                    simp only [Prod.mk.injEq] at h
                    obtain ⟨rfl, rfl, rfl⟩ := h
                    exact ⟨⟨x1, x2, le_trans u3 x3, le_trans u4 x4⟩,
                      fun pkt hp => Option.noConfusion hp⟩
                  · rename_i hlong
                    cases e2 with
                    | true =>
                      simp only [getSamples_errored, Prod.mk.injEq] at h
                      obtain ⟨rfl, rfl, rfl⟩ := h
                      exact ⟨⟨x1, x2, le_trans u3 x3, le_trans u4 x4⟩,
                        fun pkt hp => Option.noConfusion hp⟩
                    | false =>
                      rcases hrec2 : getSamples P n false st2
                          (f + (P.bufsize - P.surplus * 2) / P.samplesize) l
                        with ⟨e3, st3, _ | next⟩
                      · simp only [hrec2] at h
                        obtain ⟨⟨y1, y2, y3, y4⟩, -⟩ :=
                          ih false st2 _ l e3 st3 none x1 x2 hrec2
                        simp only [Prod.mk.injEq] at h
                        obtain ⟨rfl, rfl, rfl⟩ := h
                        exact ⟨⟨y1, y2, le_trans u3 (le_trans x3 y3),
                          le_trans u4 (le_trans x4 y4)⟩,
                          fun pkt hp => Option.noConfusion hp⟩
                      · simp only [hrec2] at h
                        obtain ⟨⟨y1, y2, y3, y4⟩, yp⟩ :=
                          ih false st2 _ l e3 st3 (some next) x1 x2 hrec2
                        simp only [Prod.mk.injEq] at h
                        obtain ⟨rfl, rfl, rfl⟩ := h
                        refine ⟨⟨y1, y2, le_trans u3 (le_trans x3 y3),
                          le_trans u4 (le_trans x4 y4)⟩, ?_⟩
                        intro pkt hp _
                        simp only [Option.some.injEq] at hp
                        subst hp
                        show prev.data ++ next.data = _
                        have hnext := yp next rfl rfl
                        rw [Nat.add_sub_cancel_left] at hshort hlong
                        have hexp : (P.bufsize - P.surplus * 2) / P.samplesize * P.samplesize
                            ≤ P.bufsize - P.surplus * 2 := Nat.div_mul_le_self _ _
                        have hps : (f + (P.bufsize - P.surplus * 2) / P.samplesize) *
                              P.samplesize =
                            f * P.samplesize +
                              (P.bufsize - P.surplus * 2) / P.samplesize * P.samplesize :=
                          Nat.add_mul f _ _
                        have hpos : 0 < (l - f) * P.samplesize :=
                          Nat.mul_pos (by omega) hWF.1
                        have hDlf : (P.bufsize - P.surplus * 2) / P.samplesize < l - f := by
                          have hmul : (P.bufsize - P.surplus * 2) / P.samplesize *
                              P.samplesize < (l - f) * P.samplesize := by omega
                          exact Nat.lt_of_mul_lt_mul_right hmul
                        have hlp : (l - f) * P.samplesize =
                            (P.bufsize - P.surplus * 2) / P.samplesize * P.samplesize +
                            (l - (f + (P.bufsize - P.surplus * 2) / P.samplesize)) *
                              P.samplesize := by
                          have harith : l - f =
                              (P.bufsize - P.surplus * 2) / P.samplesize +
                              (l - (f + (P.bufsize - P.surplus * 2) / P.samplesize)) := by
                            omega
                          rw [harith, Nat.add_mul]
                        rw [hprev, hnext, hlp, List.take_add, List.drop_drop, ← hps]
          · rename_i hsplit
            -- direct path
            cases e1 with
            | true =>
              simp only [fill_errored, Prod.mk.injEq] at h
              obtain ⟨rfl, rfl, rfl⟩ := h
              exact ⟨⟨u1, u2, u3, u4⟩, fun pkt hp => Option.noConfusion hp⟩
            | false =>
              have hres1 : f * P.samplesize < avail st1 := u6 rfl
              have hble : st1.bytepos ≤ l * P.samplesize := by
                have hfle : f * P.samplesize ≤ l * P.samplesize :=
                  Nat.mul_le_mul_right _ (by omega)
                omega
              obtain ⟨e2, st2, hfill2, v1, v2, v3, v4, v5, v6, v7⟩ :=
                fill_spec u1 u2 hble
              simp only [hfill2] at h
              split at h
              · -- negative start: out-of-bounds copy, modelled as failure
                simp only [Prod.mk.injEq] at h
                obtain ⟨rfl, rfl, rfl⟩ := h
                exact ⟨⟨v1, v2, le_trans u3 v3, le_trans u4 v4⟩,
                  fun pkt hp => Option.noConfusion hp⟩
              · rename_i hoob
                split at h
                · rename_i heof
                  simp only [Prod.mk.injEq] at h
                  obtain ⟨rfl, rfl, rfl⟩ := h
                  refine ⟨⟨v1, v2, le_trans u3 v3, le_trans u4 v4⟩, ?_⟩
                  intro pkt hp _
                  simp only [Option.some.injEq] at hp
                  subst hp
                  show (st2.buffer.drop (f * P.samplesize - st2.bytepos)).take
                    (avail st2 - st2.bytepos - (f * P.samplesize - st2.bytepos)) = _
                  have he2 : e2 = true := by
                    cases e2
                    · exact absurd (v6 rfl) (by omega)
                    · rfl
                  obtain ⟨hstream2, hle2⟩ := v7 he2
                  obtain ⟨hbp2, hdrop2⟩ := v2
                  rw [hstream2] at hdrop2
                  simp only [List.flatten_nil, List.append_nil] at hdrop2
                  have htot : total.length = avail st2 := by
                    have hl3 := congrArg List.length hdrop2
                    rw [List.length_drop] at hl3
                    unfold avail
                    omega
                  have hfs2 : f * P.samplesize < avail st2 := lt_of_lt_of_le hres1 v4
                  have havst2 : avail st2 = st2.bytepos + st2.buffer.length := rfl
                  rw [← hdrop2, List.drop_drop]
                  have harith : st2.bytepos + (f * P.samplesize - st2.bytepos) =
                      f * P.samplesize := by omega
                  rw [harith]
                  have hsubmul : (l - f) * P.samplesize =
                      l * P.samplesize - f * P.samplesize := Nat.sub_mul l f _
                  have hlen' : (total.drop (f * P.samplesize)).length =
                      total.length - f * P.samplesize := List.length_drop _ _
                  rw [List.take_of_length_le (by omega), List.take_of_length_le (by omega)]
                · rename_i heof
                  simp only [Prod.mk.injEq] at h
                  obtain ⟨rfl, rfl, rfl⟩ := h
                  refine ⟨⟨v1, v2, le_trans u3 v3, le_trans u4 v4⟩, ?_⟩
                  intro pkt hp _
                  simp only [Option.some.injEq] at hp
                  subst hp
                  show (st2.buffer.drop (f * P.samplesize - st2.bytepos)).take
                    ((l - f) * P.samplesize) = _
                  obtain ⟨hbp2, hdrop2⟩ := v2
                  have hbuf2 : st2.buffer = (total.drop st2.bytepos).take
                      st2.buffer.length := by
                    rw [hdrop2, List.take_left]
                  rw [hbuf2, List.drop_take, List.drop_drop]
                  have harith : st2.bytepos + (f * P.samplesize - st2.bytepos) =
                      f * P.samplesize := by omega
                  rw [harith, List.take_take]
                  have hsubmul : (l - f) * P.samplesize =
                      l * P.samplesize - f * P.samplesize := Nat.sub_mul l f _
                  have hminle : (l - f) * P.samplesize ≤
                      st2.buffer.length - (f * P.samplesize - st2.bytepos) := by
                    have hav : l * P.samplesize ≤ avail st2 := by omega
                    have havst2 : avail st2 = st2.bytepos + st2.buffer.length := rfl
                    omega
                  rw [inf_eq_left.mpr hminle]

/-! ## Claim theorems for the decode cache -/

/-- C1: split correctness of the decode cache.  Against a deterministic
decoded source (any cache state consistent with a total decoded byte
stream `total`), for every forward split point `a < b < c` for which the
whole request `[a,c)` (from the initial state) and the sequential pair
`[a,b)` then `[b,c)` all succeed — no evicted data, no decode error — the
payload of `get_samples(a,c)` is the byte-concatenation of the payloads of
`get_samples(a,b)` and `get_samples(b,c)`, for ranges below, above, or
straddling the capacity-split threshold. -/
theorem C1_split_correctness (P : Params) (total : List Nat) (st0 : CacheState)
    (fuel1 fuel2 fuel3 a b c : Nat) (e1 e2 e3 : Bool)
    (st1 st2 st3 : CacheState) (pac pab pbc : Packet)
    (hWF : WF P st0) (hC : Consistent total st0)
    (hab : a < b) (hbc : b < c)
    (h1 : getSamples P fuel1 false st0 a c = (e1, st1, some pac))
    (h2 : getSamples P fuel2 false st0 a b = (e2, st2, some pab))
    (h3 : getSamples P fuel3 e2 st2 b c = (e3, st3, some pbc)) :
    pac.data = pab.data ++ pbc.data := by
  have he2 : e2 = false := by
    cases e2
    · rfl
    · rw [getSamples_errored] at h3
      simp at h3
  subst he2
  obtain ⟨-, p1⟩ :=
    getSamples_spec P total fuel1 false st0 a c e1 st1 _ hWF hC h1
  obtain ⟨⟨w1, w2, -, -⟩, p2⟩ :=
    getSamples_spec P total fuel2 false st0 a b false st2 _ hWF hC h2
  obtain ⟨-, p3⟩ :=
    getSamples_spec P total fuel3 false st2 b c e3 st3 _ w1 w2 h3
  rw [p1 pac rfl rfl, p2 pab rfl rfl, p3 pbc rfl rfl]
  have h1' : (c - a) * P.samplesize =
      (b - a) * P.samplesize + (c - b) * P.samplesize := by
    have hd : c - a = (b - a) + (c - b) := by omega
    rw [hd, Nat.add_mul]
  have h2' : a * P.samplesize + (b - a) * P.samplesize = b * P.samplesize := by
    rw [← Nat.add_mul]
    congr 1
    omega
  rw [h1', List.take_add, List.drop_drop, h2']

theorem C1_split_correctness_witness :
    WF ⟨6, 1, 1⟩ ⟨[[1,2,3],[4,5,6],[7,8,9]], [], 0⟩ ∧
    Consistent [1,2,3,4,5,6,7,8,9] ⟨[[1,2,3],[4,5,6],[7,8,9]], [], 0⟩ ∧
    (⟨[1,2,3,4,5,6,7], false, 0, 0⟩ : Packet).data =
      (⟨[1,2,3], false, 0, 0⟩ : Packet).data ++
      (⟨[4,5,6,7], false, 0, 0⟩ : Packet).data :=
  ⟨by decide, by decide,
    C1_split_correctness ⟨6, 1, 1⟩ [1,2,3,4,5,6,7,8,9]
      ⟨[[1,2,3],[4,5,6],[7,8,9]], [], 0⟩ 10 10 10 0 3 7
      false false false ⟨[], [4,5,6,7,8,9], 3⟩ ⟨[[7,8,9]], [1,2,3,4,5,6], 0⟩
      ⟨[], [4,5,6,7,8,9], 3⟩ ⟨[1,2,3,4,5,6,7], false, 0, 0⟩
      ⟨[1,2,3], false, 0, 0⟩ ⟨[4,5,6,7], false, 0, 0⟩
      (by decide) (by decide) (by decide) (by decide)
      (by decide) (by decide) (by decide)⟩

/-- C2 counterexample: the claim asserts the first half's byte span equals
`capacity − 2×surplus`, but the code's pivot is
`first + (bufsize − 2·surplus) / samplesize` with integer division, so the
span is that quantity rounded DOWN to a multiple of `samplesize`.  With
`bufsize = 11`, `surplus = 3`, `samplesize = 2`, a split call succeeds
(span condition `10 + 3 > 11` holds), yet `capacity − 2·surplus = 5` is
not a multiple of `samplesize = 2`: no sample pivot with byte span 5
exists, and the code's own first half spans `⌊5/2⌋·2 = 4` bytes. -/
theorem C2_counterexample :
    ((5 - 0) * (⟨11, 3, 2⟩ : Params).samplesize + (⟨11, 3, 2⟩ : Params).surplus
        > (⟨11, 3, 2⟩ : Params).bufsize) ∧
    (getSamples ⟨11, 3, 2⟩ 10 false
        ⟨[[1,2],[3,4],[5,6],[7,8],[9,10],[11,12]], [], 0⟩ 0 5).2.2 =
      some ⟨[1,2,3,4,5,6,7,8,9,10], false, 0, 0⟩ ∧
    ((0 + ((⟨11, 3, 2⟩ : Params).bufsize - (⟨11, 3, 2⟩ : Params).surplus * 2) /
          (⟨11, 3, 2⟩ : Params).samplesize - 0) *
        (⟨11, 3, 2⟩ : Params).samplesize ≠
      (⟨11, 3, 2⟩ : Params).bufsize - (⟨11, 3, 2⟩ : Params).surplus * 2) ∧
    ¬ ((⟨11, 3, 2⟩ : Params).samplesize ∣
        (⟨11, 3, 2⟩ : Params).bufsize - (⟨11, 3, 2⟩ : Params).surplus * 2) := by
  refine ⟨by decide, by decide, by decide, by decide⟩

/-- C2 amended: when the requested byte span plus `surplus` exceeds the
buffer capacity, `get_samples` splits at the pivot sample
`first + (bufsize − 2·surplus) / samplesize` — so the first half's byte
span is `bufsize − 2·surplus` rounded down to a multiple of
`bytes_per_sample_frame` (equal to `bufsize − 2·surplus` exactly when
`samplesize` divides it) — recursively fetches `[first, pivot)` and
`[pivot, last)`, and returns a packet whose payload is the concatenation
of the two halves and whose size is the sum of their sizes. -/
theorem C2_split_pivot (P : Params) (fuel : Nat) (st st1 st2 st3 : CacheState)
    (f l : Nat) (e1 e2 e3 : Bool) (a : Nat) (prev next : Packet)
    (hfl : f < l)
    (htrig : (l - f) * P.samplesize + P.surplus > P.bufsize)
    (hfill : fillBufferUntil P false st f = (e1, st1, some a))
    (hprev : getSamples P fuel e1 st1 f
      (f + (P.bufsize - P.surplus * 2) / P.samplesize) = (e2, st2, some prev))
    (hlen : prev.data.length =
      (f + (P.bufsize - P.surplus * 2) / P.samplesize - f) * P.samplesize)
    (hnext : getSamples P fuel e2 st2
      (f + (P.bufsize - P.surplus * 2) / P.samplesize) l = (e3, st3, some next)) :
    getSamples P (fuel + 1) false st f l =
      (e3, st3, some ⟨prev.data ++ next.data, false, 0, 0⟩) ∧
    (prev.data ++ next.data).length = prev.data.length + next.data.length := by
  refine ⟨?_, List.length_append _ _⟩
  simp only [getSamples]
  rw [if_neg (show ¬ l ≤ f by omega)]
  simp only [hfill]
  rw [if_pos htrig]
  simp only [hprev]
  rw [if_neg (by omega), if_neg (by omega)]
  simp only [hnext]

theorem C2_split_pivot_witness :
    (0 : Nat) < 5 ∧
    getSamples ⟨11, 3, 2⟩ 10 false
        ⟨[[1,2],[3,4],[5,6],[7,8],[9,10],[11,12]], [], 0⟩ 0 5 =
      (false, ⟨[], [3,4,5,6,7,8,9,10,11,12], 2⟩,
        some ⟨[1,2,3,4,5,6,7,8,9,10], false, 0, 0⟩) :=
  ⟨by decide,
    ((C2_split_pivot ⟨11, 3, 2⟩ 9
      ⟨[[1,2],[3,4],[5,6],[7,8],[9,10],[11,12]], [], 0⟩
      ⟨[[3,4],[5,6],[7,8],[9,10],[11,12]], [1,2], 0⟩
      ⟨[[7,8],[9,10],[11,12]], [1,2,3,4,5,6], 0⟩
      ⟨[], [3,4,5,6,7,8,9,10,11,12], 2⟩ 0 5 false false false 2
      ⟨[1,2,3,4], false, 0, 0⟩ ⟨[5,6,7,8,9,10], false, 0, 0⟩
      (by decide) (by decide) (by decide) (by decide) (by decide)
      (by decide)).1 : _)⟩

/-- C3: end-of-stream during a split.  When the recursive fetch of the
first half `[first, pivot)` returns fewer bytes than the expected
`(pivot − first) × bytes_per_sample_frame`, that first-half packet itself
is returned as the overall result with the end-of-stream flag set, and the
second half `[pivot, last)` is never fetched: the call returns immediately
with the state left exactly as the first recursive call left it. -/
theorem C3_split_eof (P : Params) (fuel : Nat) (st st1 st2 : CacheState)
    (f l : Nat) (e1 e2 : Bool) (a : Nat) (prev : Packet)
    (hfl : f < l)
    (htrig : (l - f) * P.samplesize + P.surplus > P.bufsize)
    (hfill : fillBufferUntil P false st f = (e1, st1, some a))
    (hprev : getSamples P fuel e1 st1 f
      (f + (P.bufsize - P.surplus * 2) / P.samplesize) = (e2, st2, some prev))
    (hlen : prev.data.length <
      (f + (P.bufsize - P.surplus * 2) / P.samplesize - f) * P.samplesize) :
    getSamples P (fuel + 1) false st f l =
      (e2, st2, some { prev with eof := true }) := by
  simp only [getSamples]
  rw [if_neg (show ¬ l ≤ f by omega)]
  simp only [hfill]
  rw [if_pos htrig]
  simp only [hprev]
  rw [if_pos hlen]

theorem C3_split_eof_witness :
    (0 : Nat) < 7 ∧
    getSamples ⟨6, 1, 1⟩ 10 false ⟨[[1,2,3]], [], 0⟩ 0 7 =
      (true, ⟨[], [1,2,3], 0⟩, some ⟨[1,2,3], true, 0, 0⟩) :=
  ⟨by decide,
    C3_split_eof ⟨6, 1, 1⟩ 9 ⟨[[1,2,3]], [], 0⟩ ⟨[], [1,2,3], 0⟩
      ⟨[], [1,2,3], 0⟩ 0 7 false true 3 ⟨[1,2,3], true, 0, 0⟩
      (by decide) (by decide) (by decide) (by decide) (by decide)⟩

/-- C4: sliding-window eviction invariant.  (i) Whenever appending a newly
decoded unit would overflow the capacity, exactly that unit's size in
oldest bytes is discarded from the front and `bytepos` advances by exactly
that amount before the unit is appended.  (ii) Consequently each
`get_samples` call leaves `bytepos` no smaller and keeps
`0 ≤ filled_len ≤ capacity` (lengths are naturals, so `0 ≤` is inherent),
and (iii) along every sequence of requests on a handle, `bytepos` is
monotonically non-decreasing and the fill stays within capacity. -/
theorem C4_eviction_invariant (P : Params) :
    (∀ (st : CacheState) (dec : List Nat) (rest : List (List Nat)),
      st.stream = dec :: rest →
      st.buffer.length + dec.length > P.bufsize →
      bufferNextFrame P st = some
        { stream := rest, buffer := st.buffer.drop dec.length ++ dec,
          bytepos := st.bytepos + dec.length }) ∧
    (∀ (total : List Nat) (fuel : Nat) (e e' : Bool) (st st' : CacheState)
      (f l : Nat) (r : Option Packet),
      WF P st → Consistent total st →
      getSamples P fuel e st f l = (e', st', r) →
      st.bytepos ≤ st'.bytepos ∧ st'.buffer.length ≤ P.bufsize) ∧
    (∀ (total : List Nat) (fuel : Nat) (reqs : List (Nat × Nat)) (e : Bool)
      (st : CacheState),
      WF P st → Consistent total st →
      st.bytepos ≤ (runRequests P fuel reqs (e, st)).2.bytepos ∧
      (runRequests P fuel reqs (e, st)).2.buffer.length ≤ P.bufsize) := by
  refine ⟨?_, ?_, ?_⟩
  · intro st dec rest hs hover
    simp only [bufferNextFrame, hs, if_pos hover]
  · intro total fuel e e' st st' f l r hWF hC h
    obtain ⟨⟨w1, -, w3, -⟩, -⟩ :=
      getSamples_spec P total fuel e st f l e' st' r hWF hC h
    exact ⟨w3, w1.2.1⟩
  · intro total fuel reqs
    induction reqs with
    | nil => intro e st hWF hC; exact ⟨le_refl _, hWF.2.1⟩
    | cons q reqs ih =>
      intro e st hWF hC
      obtain ⟨f, l⟩ := q
      rcases hg : getSamples P fuel e st f l with ⟨e1, st1, r1⟩
      obtain ⟨⟨w1, w2, w3, -⟩, -⟩ :=
        getSamples_spec P total fuel e st f l e1 st1 r1 hWF hC hg
      have hrun : runRequests P fuel ((f, l) :: reqs) (e, st) =
          runRequests P fuel reqs (e1, st1) := by
        simp only [runRequests, hg]
      rw [hrun]
      obtain ⟨z1, z2⟩ := ih e1 st1 w1 w2
      exact ⟨le_trans w3 z1, z2⟩

theorem C4_eviction_invariant_witness :
    (⟨[[7,8]], [1,2,3,4,5,6], 0⟩ : CacheState).stream = [7,8] :: [] ∧
    bufferNextFrame ⟨6, 1, 1⟩ ⟨[[7,8]], [1,2,3,4,5,6], 0⟩ =
      some ⟨[], [3,4,5,6,7,8], 2⟩ ∧
    (0 : Nat) ≤ 3 ∧ (6 : Nat) ≤ 6 :=
  ⟨by decide,
    by
      have hb := (C4_eviction_invariant ⟨6, 1, 1⟩).1
        ⟨[[7,8]], [1,2,3,4,5,6], 0⟩ [7,8] [] (by decide) (by decide)
      simpa using hb,
    by decide,
    ((C4_eviction_invariant ⟨6, 1, 1⟩).2.1 [1,2,3,4,5,6,7,8,9] 10 false false
      ⟨[[1,2,3],[4,5,6],[7,8,9]], [], 0⟩ ⟨[], [4,5,6,7,8,9], 3⟩ 0 7
      (some ⟨[1,2,3,4,5,6,7], false, 0, 0⟩) (by decide) (by decide)
      (by decide)).2⟩

/-- C5: backward-seek rejection.  A `get_samples` call whose `first_sample`
addresses bytes below the current `byte_position` (already evicted) fails
outright: it returns the error result (`NULL`), never a partial packet,
and leaves the shared error flag and the cache's entire state — buffer
contents, `byte_position`, `filled_len` — unchanged. -/
theorem C5_backward_seek (P : Params) (fuel : Nat) (e : Bool)
    (st : CacheState) (f l : Nat)
    (h : f * P.samplesize < st.bytepos) :
    getSamples P fuel e st f l = (e, st, none) := by
  cases fuel with
  | zero => rfl
  | succ n =>
    cases e with
    | true => exact getSamples_errored P (n + 1) st f l
    | false =>
      simp only [getSamples]
      split
      · rfl
      · rw [fill_backward false h]

theorem C5_backward_seek_witness :
    (2 * (⟨6, 1, 1⟩ : Params).samplesize < 3) ∧
    getSamples ⟨6, 1, 1⟩ 5 false ⟨[], [4,5,6], 3⟩ 2 5 =
      (false, ⟨[], [4,5,6], 3⟩, none) :=
  ⟨by decide, C5_backward_seek ⟨6, 1, 1⟩ 5 false ⟨[], [4,5,6], 3⟩ 2 5 (by decide)⟩

/-- C6 counterexample: the decode-error flag is NOT per-instance state.  In
the C it is a function-local `static int errored` in `fill_buffer_until`,
shared program-wide.  Concretely: instance A's short stream makes a request
on A run out of data, which sets the shared flag; a subsequent, perfectly
servable request on instance B then fails, even though B's own cache state
is untouched and the very same request on B's state with a clear flag
succeeds.  This refutes "other decode-cache instances are unaffected". -/
theorem C6_counterexample :
    (getSamplesA ⟨6, 1, 1⟩ 10 ⟨false, ⟨[[1]], [], 0⟩, ⟨[[1,2,3]], [], 0⟩⟩
        0 5).1.errored = true ∧
    (getSamplesB ⟨6, 1, 1⟩ 10
        (getSamplesA ⟨6, 1, 1⟩ 10 ⟨false, ⟨[[1]], [], 0⟩, ⟨[[1,2,3]], [], 0⟩⟩
          0 5).1 0 2).2 = none ∧
    (getSamplesB ⟨6, 1, 1⟩ 10
        (getSamplesA ⟨6, 1, 1⟩ 10 ⟨false, ⟨[[1]], [], 0⟩, ⟨[[1,2,3]], [], 0⟩⟩
          0 5).1 0 2).1.instB = ⟨[[1,2,3]], [], 0⟩ ∧
    (getSamples ⟨6, 1, 1⟩ 10 false ⟨[[1,2,3]], [], 0⟩ 0 2).2.2 =
      some ⟨[1,2], false, 0, 0⟩ := by
  refine ⟨by decide, by decide, by decide, by decide⟩

/-- C6 amended: the decode-error flag is a single program-wide `static`
shared by every decode-cache instance.  Once it is set — by whichever
instance — every subsequent `get_samples` call on EVERY instance fails
immediately, attempting no further decoding and leaving both instances'
cache states (and the flag) unchanged. -/
theorem C6_sticky_error_global (P : Params) (fuel : Nat) (w : World)
    (f1 l1 f2 l2 : Nat) (h : w.errored = true) :
    getSamplesA P fuel w f1 l1 = (w, none) ∧
    getSamplesB P fuel w f2 l2 = (w, none) := by
  obtain ⟨e, a, b⟩ := w
  have he : e = true := h
  subst he
  unfold getSamplesA getSamplesB
  rw [getSamples_errored, getSamples_errored]
  exact ⟨rfl, rfl⟩

theorem C6_sticky_error_global_witness :
    (⟨true, ⟨[], [1], 0⟩, ⟨[[1,2,3]], [], 0⟩⟩ : World).errored = true ∧
    getSamplesA ⟨6, 1, 1⟩ 10 ⟨true, ⟨[], [1], 0⟩, ⟨[[1,2,3]], [], 0⟩⟩ 0 5 =
      (⟨true, ⟨[], [1], 0⟩, ⟨[[1,2,3]], [], 0⟩⟩, none) ∧
    getSamplesB ⟨6, 1, 1⟩ 10 ⟨true, ⟨[], [1], 0⟩, ⟨[[1,2,3]], [], 0⟩⟩ 0 2 =
      (⟨true, ⟨[], [1], 0⟩, ⟨[[1,2,3]], [], 0⟩⟩, none) :=
  ⟨rfl,
    (C6_sticky_error_global ⟨6, 1, 1⟩ 10
      ⟨true, ⟨[], [1], 0⟩, ⟨[[1,2,3]], [], 0⟩⟩ 0 5 0 2 rfl).1,
    (C6_sticky_error_global ⟨6, 1, 1⟩ 10
      ⟨true, ⟨[], [1], 0⟩, ⟨[[1,2,3]], [], 0⟩⟩ 0 5 0 2 rfl).2⟩

/-- C8: every packet successfully returned by the public `get_samples`
entry point (the `x264_af_get_samples` wrapper, modelled from the spec)
carries `timestamp = first_sample`, for every valid forward request,
whether the underlying filter served it by direct copy or by recursive
splitting: the wrapper stamps `dts := first_sample` on whatever packet the
filter produced. -/
theorem C8_timestamp (P : Params) (fuel : Nat) (e e' : Bool)
    (st st' : CacheState) (f l : Nat) (pkt : Packet)
    (h : afGetSamples P fuel e st f l = (e', st', some pkt)) :
    pkt.dts = f := by
  unfold afGetSamples at h
  rcases hg : getSamples P fuel e st f l with ⟨a, b, _ | q⟩ <;>
    simp only [hg] at h
  · simp at h
  · simp only [Prod.mk.injEq, Option.some.injEq] at h
    obtain ⟨-, -, hq⟩ := h
    rw [← hq]

/-- C7: the Running-state loop of `get_next_packet`.  Every completed run
of the loop pulls some sequence of windows `[last_sample,
last_sample+frame_len)` from upstream (`gnpTrace`): (i) the final
`last_sample` is the initial one advanced by exactly the sum of the sample
counts actually returned by those pulls (each pull advances it by exactly
`h->in->samplecount`, which may be fewer than `frame_len` at end of
stream); (ii) a packet is only returned with a non-empty encoded payload —
a pull whose encode yields zero bytes makes the loop pull again instead of
returning an empty packet; (iii) the loop only gives up (`NULL`) on the
EOF-flagged held packet (entering the Draining state) or on a failed
upstream pull. -/
theorem C7_running_loop {Λ Υ : Type} (enc : Λ → Packet → Λ × List Nat)
    (pull : Υ → Nat → Nat → Option Packet × Υ) (framelen : Nat) :
    ∀ (fuel : Nat) (st st' : EncState Λ Υ) (r : Option OutPkt),
      gnpLoop enc pull framelen fuel st = some (r, st') →
      (st'.last_sample = st.last_sample +
        ((gnpTrace enc pull framelen fuel st).map Packet.samplecount).sum) ∧
      (∀ out, r = some out → out.data ≠ []) ∧
      (r = none → (st'.finishing = 1 ∧ st'.inFreed = true) ∨ st'.in_ = none) := by
  intro fuel
  induction fuel with
  | zero =>
    intro st st' r h
    simp [gnpLoop] at h
  | succ n ih =>
    intro st st' r h
    simp only [gnpLoop, gnpTrace] at h ⊢
    split at h
    · rename_i heof
      rw [if_pos heof]
      simp only [Option.some.injEq, Prod.mk.injEq] at h
      obtain ⟨rfl, rfl⟩ := h
      refine ⟨by simp, ?_, ?_⟩
      · intro out hout
        exact Option.noConfusion hout
      · intro _
        exact Or.inl ⟨rfl, rfl⟩
    · rename_i heof
      rw [if_neg heof]
      rcases hp : pull st.up st.last_sample (st.last_sample + framelen)
        with ⟨_ | p, u'⟩
      · simp only [hp] at h ⊢
        simp only [Option.some.injEq, Prod.mk.injEq] at h
        obtain ⟨rfl, rfl⟩ := h
        refine ⟨by simp, ?_, fun _ => Or.inr rfl⟩
        intro out hout
        exact Option.noConfusion hout
      · rcases he : enc st.lame p with ⟨l', bytes⟩
        simp only [hp, he] at h ⊢
        split at h
        · rename_i hempty
          rw [if_pos hempty]
          obtain ⟨ihl, ihs, ihn⟩ := ih _ st' r h
          refine ⟨?_, ihs, ihn⟩
          rw [ihl]
          simp only [List.map_cons, List.sum_cons]
          omega
        · rename_i hempty
          rw [if_neg hempty]
          simp only [Option.some.injEq, Prod.mk.injEq] at h
          obtain ⟨rfl, rfl⟩ := h
          refine ⟨by simp, ?_, ?_⟩
          · intro out hout
            simp only [Option.some.injEq] at hout
            subst hout
            show bytes ≠ []
            simpa using hempty
          · intro habs
            exact Option.noConfusion habs

theorem C7_running_loop_witness :
    gnpLoop toyEnc scriptPull 4 5
        ⟨0, 0, 0, none, false,
          [⟨[1,1,1,1], false, 0, 4⟩, ⟨[2,2], false, 0, 2⟩], 100, 0⟩ =
      some (some ⟨4, [7,7]⟩,
        ⟨0, 2, 6, some ⟨[2,2], false, 0, 2⟩, false, [], 100, 0⟩) ∧
    (⟨0, 2, 6, some ⟨[2,2], false, 0, 2⟩, false, [], 100, 0⟩ :
        EncState Nat (List Packet)).last_sample =
      (⟨0, 0, 0, none, false,
          [⟨[1,1,1,1], false, 0, 4⟩, ⟨[2,2], false, 0, 2⟩], 100, 0⟩ :
        EncState Nat (List Packet)).last_sample +
      ((gnpTrace toyEnc scriptPull 4 5
          ⟨0, 0, 0, none, false,
            [⟨[1,1,1,1], false, 0, 4⟩, ⟨[2,2], false, 0, 2⟩], 100, 0⟩).map
        Packet.samplecount).sum ∧
    (⟨4, [7,7]⟩ : OutPkt).data ≠ [] :=
  ⟨by decide,
    (C7_running_loop toyEnc scriptPull 4 5
      ⟨0, 0, 0, none, false,
        [⟨[1,1,1,1], false, 0, 4⟩, ⟨[2,2], false, 0, 2⟩], 100, 0⟩
      ⟨0, 2, 6, some ⟨[2,2], false, 0, 2⟩, false, [], 100, 0⟩
      (some ⟨4, [7,7]⟩) (by decide)).1,
    (C7_running_loop toyEnc scriptPull 4 5
      ⟨0, 0, 0, none, false,
        [⟨[1,1,1,1], false, 0, 4⟩, ⟨[2,2], false, 0, 2⟩], 100, 0⟩
      ⟨0, 2, 6, some ⟨[2,2], false, 0, 2⟩, false, [], 100, 0⟩
      (some ⟨4, [7,7]⟩) (by decide)).2.1 ⟨4, [7,7]⟩ rfl⟩

/-- C9: precondition of `finish`.  The flush timestamp reads
`h->in->samplecount`, so the access is to a live packet exactly when a
pull has succeeded and the reference has not been released: (i) right
after `init` the held packet is absent, and `finish` reads an absent
packet; (ii) after any `get_next_packet` that returned a packet, the held
packet is live and `finish` is well-defined; (iii) after any
`get_next_packet` loop run that returned `NULL` — the error path, which
releases the held packet without clearing the reference (EOF case) or
leaves it absent (failed pull) — `finish` reads an absent or
already-released packet; (iv) a `get_next_packet` call in the
Draining/flushed state returns `NULL` immediately and leaves the state —
hence the liveness of the held packet — unchanged. -/
theorem C9_finish_liveness {Λ Υ : Type} (enc : Λ → Packet → Λ × List Nat)
    (pull : Υ → Nat → Nat → Option Packet × Υ) (flushFn : Λ → List Nat)
    (framelen : Nat) :
    (∀ (lame0 : Λ) (up0 : Υ) (bufsize : Nat),
      finish flushFn (encInit lame0 up0 bufsize) = none) ∧
    (∀ (fuel : Nat) (st st' : EncState Λ Υ) (out : OutPkt),
      gnpLoop enc pull framelen fuel st = some (some out, st') →
      FinishSafe st' ∧ finish flushFn st' ≠ none) ∧
    (∀ (fuel : Nat) (st st' : EncState Λ Υ),
      gnpLoop enc pull framelen fuel st = some (none, st') →
      finish flushFn st' = none) ∧
    (∀ (fuel : Nat) (st : EncState Λ Υ), st.finishing ≠ 0 →
      getNextPacket enc pull framelen fuel st = some (none, st)) := by
  refine ⟨?_, ?_, ?_, ?_⟩
  · intro lame0 up0 bufsize
    rfl
  · intro fuel
    induction fuel with
    | zero =>
      intro st st' out h
      simp [gnpLoop] at h
    | succ n ih =>
      intro st st' out h
      simp only [gnpLoop] at h
      split at h
      · simp at h
      · rcases hp : pull st.up st.last_sample (st.last_sample + framelen)
          with ⟨_ | p, u'⟩
        · simp only [hp] at h
          simp at h
        · rcases he : enc st.lame p with ⟨l', bytes⟩
          simp only [hp, he] at h
          split at h
          · exact ih _ st' out h
          · simp only [Option.some.injEq, Prod.mk.injEq] at h
            obtain ⟨-, rfl⟩ := h
            exact ⟨⟨rfl, rfl⟩, by simp [finish]⟩
  · intro fuel
    induction fuel with
    | zero =>
      intro st st' h
      simp [gnpLoop] at h
    | succ n ih =>
      intro st st' h
      simp only [gnpLoop] at h
      split at h
      · simp only [Option.some.injEq, Prod.mk.injEq] at h
        obtain ⟨-, rfl⟩ := h
        rcases hin : st.in_ with _ | p <;> simp [finish, hin]
      · rcases hp : pull st.up st.last_sample (st.last_sample + framelen)
          with ⟨_ | p, u'⟩
        · simp only [hp] at h
          simp only [Option.some.injEq, Prod.mk.injEq] at h
          obtain ⟨-, rfl⟩ := h
          rfl
        · rcases he : enc st.lame p with ⟨l', bytes⟩
          simp only [hp, he] at h
          split at h
          · exact ih _ st' h
          · simp at h
  · intro fuel st h
    unfold getNextPacket
    rw [if_pos h]

theorem C9_finish_liveness_witness :
    finish toyFlush (encInit (0 : Nat) ([] : List Packet) 100) = none ∧
    (FinishSafe (⟨0, 2, 6, some ⟨[2,2], false, 0, 2⟩, false, [], 100, 0⟩ :
        EncState Nat (List Packet)) ∧
      finish toyFlush (⟨0, 2, 6, some ⟨[2,2], false, 0, 2⟩, false, [], 100, 0⟩ :
        EncState Nat (List Packet)) ≠ none) ∧
    finish toyFlush (⟨0, 2, 6, none, false, [], 100, 0⟩ :
      EncState Nat (List Packet)) = none ∧
    getNextPacket toyEnc scriptPull 4 5
        (⟨1, 2, 6, some ⟨[2,2], false, 0, 2⟩, true, [], 100, 0⟩ :
          EncState Nat (List Packet)) =
      some (none, ⟨1, 2, 6, some ⟨[2,2], false, 0, 2⟩, true, [], 100, 0⟩) :=
  ⟨(C9_finish_liveness toyEnc scriptPull toyFlush 4).1 0 [] 100,
    (C9_finish_liveness toyEnc scriptPull toyFlush 4).2.1 5
      ⟨0, 0, 0, none, false,
        [⟨[1,1,1,1], false, 0, 4⟩, ⟨[2,2], false, 0, 2⟩], 100, 0⟩
      ⟨0, 2, 6, some ⟨[2,2], false, 0, 2⟩, false, [], 100, 0⟩
      ⟨4, [7,7]⟩ (by decide),
    (C9_finish_liveness toyEnc scriptPull toyFlush 4).2.2.1 5
      ⟨0, 2, 6, some ⟨[2,2], false, 0, 2⟩, false, [], 100, 0⟩
      ⟨0, 2, 6, none, false, [], 100, 0⟩ (by decide),
    (C9_finish_liveness toyEnc scriptPull toyFlush 4).2.2.2 5
      ⟨1, 2, 6, some ⟨[2,2], false, 0, 2⟩, true, [], 100, 0⟩ (by decide)⟩

/-- C10: frame effect of `skip_samples`: for every adapter state and count,
it increases `last_sample` by exactly the given count and leaves every
other field unchanged — the finishing state, the external encoder
instance, the held input packet (and its liveness), the upstream handle
(no pull), the output buffer capacity, and the packet count. -/
theorem C10_skip_samples {Λ Υ : Type} (st : EncState Λ Υ) (n : Nat) :
    (skipSamples st n).last_sample = st.last_sample + n ∧
    (skipSamples st n).finishing = st.finishing ∧
    (skipSamples st n).lame = st.lame ∧
    (skipSamples st n).in_ = st.in_ ∧
    (skipSamples st n).inFreed = st.inFreed ∧
    (skipSamples st n).up = st.up ∧
    (skipSamples st n).bufsize = st.bufsize ∧
    (skipSamples st n).packet_count = st.packet_count :=
  ⟨rfl, rfl, rfl, rfl, rfl, rfl, rfl, rfl⟩

theorem C8_timestamp_witness :
    afGetSamples ⟨6, 1, 1⟩ 10 false ⟨[[1,2,3],[4,5,6],[7,8,9]], [], 0⟩ 3 5 =
      (false, ⟨[[7,8,9]], [1,2,3,4,5,6], 0⟩, some ⟨[4,5], false, 3, 2⟩) ∧
    (⟨[4,5], false, 3, 2⟩ : Packet).dts = 3 :=
  ⟨by decide,
    C8_timestamp ⟨6, 1, 1⟩ 10 false false ⟨[[1,2,3],[4,5,6],[7,8,9]], [], 0⟩
      ⟨[[7,8,9]], [1,2,3,4,5,6], 0⟩ 3 5 ⟨[4,5], false, 3, 2⟩ (by decide)⟩

end X264Audio
